import Mathlib

/-!
# TurboShell (`tshell.cpp`): a shallow embedding and its verified properties

The shell is a read / tokenize / dispatch loop.  Strings are Lean `String`s, a
`Command` is a `List String`, and every interaction with the outside world is
recorded, in order, in a trace of events.  Answers of the operating system and
of the C++ runtime that the source does not determine (the result of `chdir`,
of `fork`, what each `waitpid` call stores, the iteration order of the
`unordered_map`) are read from an environment `Env`; every theorem quantifies
over all environments.
-/

namespace TurboShell

/-! ## Tokenizer -/

/-- The whitespace class used by formatted extraction in the classic locale:
space (32), tab (9), newline (10), vertical tab (11), form feed (12) and
carriage return (13). -/
def isspace (c : Char) : Bool :=
  c.toNat == 32 || c.toNat == 9 || c.toNat == 10 || c.toNat == 11 || c.toNat == 12 ||
    c.toNat == 13

/-- One formatted extraction `stream >> token` on the unread characters `s`:
leading whitespace is skipped, then characters are taken up to the next
whitespace character or the end of the stream.  The extraction fails (`none`)
when no character could be taken; otherwise it yields the token and the unread
remainder. -/
def extract (s : List Char) : Option (List Char × List Char) :=
  let s1 := s.dropWhile isspace
  let tok := s1.takeWhile (fun c => !isspace c)
  if tok.isEmpty then none else some (tok, s1.dropWhile (fun c => !isspace c))

/-- The loop `while (stream >> token) tokens.push_back(token);`, bounded by a
number of iterations. -/
def split_loop : Nat → List Char → List (List Char)
  | 0, _ => []
  | fuel + 1, s =>
    match extract s with
    | none => []
    | some (tok, rest) => tok :: split_loop fuel rest

/-- Embedding of `tsh_split_line`.  Every successful extraction consumes at
least one character, so `line.length + 1` iterations always suffice. -/
def tsh_split_line (line : String) : List String :=
  (split_loop (line.length + 1) line.data).map String.mk

/-- Specification of the tokenizer, stated independently of the extraction
loop: `MaximalRuns s ts` holds when
`ts` lists, from left to right, the maximal runs of non-whitespace characters
of `s`.  Either `s` is all whitespace and there is no run, or `s` is a block of
whitespace, then a non-empty run `t` without whitespace which is followed by
the end of `s` or by a whitespace character, then a remainder whose runs are
the remaining ones. -/
inductive MaximalRuns : List Char → List (List Char) → Prop
  | nil (ws : List Char) (hws : ∀ c ∈ ws, isspace c = true) : MaximalRuns ws []
  | cons (ws t rest : List Char) (ts : List (List Char))
      (hws : ∀ c ∈ ws, isspace c = true)
      (hne : t ≠ [])
      (ht : ∀ c ∈ t, isspace c = false)
      (hsep : ∀ c ∈ rest.head?, isspace c = true)
      (hrest : MaximalRuns rest ts) :
      MaximalRuns (ws ++ (t ++ rest)) (t :: ts)

/-! ## The world around the shell -/

/-- A command: element 0 is the command name, the rest are its arguments
(`std::vector<std::string>`). -/
abbrev Command := List String

/-- The status stored by `waitpid(pid, &status, WUNTRACED)`: the child exited
normally, was terminated by a signal, or is stopped. -/
inductive WaitStatus
  | exited (code : Nat)
  | signaled (sig : Nat)
  | stopped (sig : Nat)
  deriving DecidableEq

/-- True exactly for a normal exit. -/
def WIFEXITED : WaitStatus → Bool
  | .exited _ => true
  | _ => false

/-- True exactly for a termination by a signal. -/
def WIFSIGNALED : WaitStatus → Bool
  | .signaled _ => true
  | _ => false

/-- Everything the process does that is visible outside of it, plus the call of
the dispatcher made by the loop.  A `waitpid` event records what the call
stored in `status`: `some st` when it succeeded, `none` when it failed and
stored nothing. -/
inductive Event
  | cout (text : String)
  | cerr (text : String)
  | getline (line : Option String)
  | chdir (path : String) (ret : Int)
  | fork (ret : Int)
  | execvp (file : String) (argv : List String)
  | waitpid (pid : Int) (stored : Option WaitStatus)
  | execute (arguments : Command)
  deriving DecidableEq

/-- State of the process: the lines that successive `std::getline` calls on
`std::cin` will deliver; what follows them, a genuine read error
(`stdin_error = true`, for instance a closed or unreadable descriptor) or the
end of the input; the value `stdin_eof` of `std::cin.eof()` after the
`std::getline` call that fails; the working directory; and the events so far,
oldest first.  The source sees `stdin_eof` only.  How a read error shows in
`eof()` is decided by the C++ runtime: `std::cin`, synchronised with C stdio,
reads through `getc`, which answers a read error like the end of the input, so
the runtime sets `eofbit` in both cases. -/
structure World where
  stdin : List String
  stdin_eof : Bool
  stdin_error : Bool
  cwd : String
  trace : List Event
  deriving DecidableEq

/-- Answer of `chdir`: its return value and the directory the path resolves to
(which becomes the working directory when the return value is 0). -/
structure ChdirAnswer where
  ret : Int
  dir : String

/-- Answer of `fork`: its return value in this process and, for a created child,
what the successive `waitpid` calls on it do, in order: `some st` when the call
succeeds and stores the status `st`, `none` when the call fails (it returns -1,
for instance with `ECHILD` when `SIGCHLD` is ignored) and stores nothing.  After
these answers no further call returns. -/
structure ForkAnswer where
  pid : Int
  waits : List (Option WaitStatus)

/-- What the source does not determine.  Each answer may depend on the whole
history of events.  `uninitialised` is the value that the local `int status` of
`tsh_launch`, declared without an initialiser, happens to hold, as the status
tests read it. -/
structure Env where
  chdir : List Event → String → String → ChdirAnswer
  fork : List Event → ForkAnswer
  execvp_fails : List Event → Bool
  strerror : List Event → String
  uninitialised : List Event → WaitStatus
  iteration : List String

/-- How a call ends: it returns a value, the process ends through `std::exit`,
the process image is replaced by `execvp`, the process waits forever for a child
that never terminates, or the iteration bound of the model is reached (shown
never to happen for `tsh_loop`). -/
inductive Result (α : Type)
  | ret (val : α) (w : World)
  | exit (code : Nat) (w : World)
  | exec (w : World)
  | hang (w : World)
  | unfinished (w : World)
  deriving DecidableEq

/-- Sequencing: continue with `f` when the call returns. -/
def Result.bind {α β : Type} : Result α → (α → World → Result β) → Result β
  | .ret a w, f => f a w
  | .exit c w, _ => .exit c w
  | .exec w, _ => .exec w
  | .hang w, _ => .hang w
  | .unfinished w, _ => .unfinished w

/-- The world in which a call ends. -/
def Result.world {α : Type} : Result α → World
  | .ret _ w => w
  | .exit _ w => w
  | .exec w => w
  | .hang w => w
  | .unfinished w => w

def EXIT_SUCCESS : Nat := 0

def EXIT_FAILURE : Nat := 1

/-- Append an event to the trace. -/
def log (w : World) (e : Event) : World :=
  { w with trace := w.trace ++ [e] }

/-- Insertion `std::cout << text`. -/
def cout (w : World) (text : String) : World := log w (Event.cout text)

/-- Insertion `std::cerr << text`. -/
def cerr (w : World) (text : String) : World := log w (Event.cerr text)

/-- The call `perror(tag)`: one line on the error stream. -/
def perror (env : Env) (w : World) (tag : String) : World :=
  log w (Event.cerr (tag ++ ": " ++ env.strerror w.trace ++ "\n"))

/-- The conversion `s.c_str()` as read by a C function: the characters before
the first NUL. -/
def c_str (s : String) : String :=
  String.mk (s.data.takeWhile (fun c => c.toNat != 0))

/-- Text written to standard output by the events of a trace. -/
def stdout_text : List Event → String
  | [] => ""
  | Event.cout t :: es => t ++ stdout_text es
  | _ :: es => stdout_text es

/-- Text written to the error stream by the events of a trace. -/
def stderr_text : List Event → String
  | [] => ""
  | Event.cerr t :: es => t ++ stderr_text es
  | _ :: es => stderr_text es

/-- The paths of the `chdir` calls of a trace. -/
def chdir_calls : List Event → List String
  | [] => []
  | Event.chdir p _ :: es => p :: chdir_calls es
  | _ :: es => chdir_calls es

/-- The process-management calls (`fork`, `execvp`, `waitpid`) of a trace. -/
def process_calls : List Event → List Event
  | [] => []
  | Event.fork r :: es => Event.fork r :: process_calls es
  | Event.execvp f a :: es => Event.execvp f a :: process_calls es
  | Event.waitpid p s :: es => Event.waitpid p s :: process_calls es
  | _ :: es => process_calls es

/-! ## The shell -/

/-- Embedding of `tsh_read_line`. -/
def tsh_read_line (env : Env) (w : World) : Result String :=
  match w.stdin with
  | line :: rest =>
    .ret line { w with stdin := rest, trace := w.trace ++ [Event.getline (some line)] }
  | [] =>
    let w1 := log w (Event.getline none)
    if w.stdin_eof then .exit EXIT_SUCCESS w1
    else .exit EXIT_FAILURE (perror env w1 "readline")

/-- The loop `do waitpid(...) while (!WIFEXITED(status) && !WIFSIGNALED(status))`
run against the answers of the successive `waitpid` calls, with the current
value of the variable `status`.  The return value of `waitpid` is not looked
at: a call that fails leaves `status` as it was, and the loop condition tests
it all the same. -/
def wait_loop (pid : Int) : List (Option WaitStatus) → WaitStatus → World → Result Unit
  | [], _, w => .hang w
  | answer :: later, status, w =>
    let status1 := answer.getD status
    let w1 := log w (Event.waitpid pid answer)
    if !WIFEXITED status1 && !WIFSIGNALED status1 then wait_loop pid later status1 w1
    else .ret () w1

/-- Embedding of `tsh_launch`. -/
def tsh_launch (env : Env) (arguments : Command) (w : World) : Result Bool :=
  if arguments.isEmpty then .ret true w
  else
    let argv := arguments.map c_str
    let answer := env.fork w.trace
    let process_id := answer.pid
    let w1 := log w (Event.fork process_id)
    if process_id == 0 then
      let w2 := log w1 (Event.execvp (argv.headD "") argv)
      if env.execvp_fails w2.trace then .exit EXIT_FAILURE (perror env w2 "tsh")
      else .exec w2
    else if process_id < 0 then
      .ret true (perror env w1 "tsh")
    else
      (wait_loop process_id answer.waits (env.uninitialised w1.trace) w1).bind
        (fun _ w2 => .ret true w2)

/-- Signature of a built-in command. -/
abbrev builtin_function := Env → Command → World → Result Bool

/-- Embedding of `tsh_cd`. -/
def tsh_cd : builtin_function := fun env arguments w =>
  if arguments.length < 2 then
    .ret true (cerr w "tsh: expected argument to \"cd\"\n")
  else
    let path := c_str (arguments.getD 1 "")
    let answer := env.chdir w.trace w.cwd path
    let w1 : World :=
      { w with cwd := if answer.ret = 0 then answer.dir else w.cwd,
               trace := w.trace ++ [Event.chdir path answer.ret] }
    if answer.ret != 0 then
      .ret true (cerr (cerr (cerr w1 "tsh: ") (env.strerror w1.trace)) "\n")
    else .ret true w1

/-- Embedding of `tsh_help`; the range-for over the `unordered_map` visits the
names in the order `env.iteration`. -/
def tsh_help : builtin_function := fun env _ w =>
  let w1 := cout w "TurboShell (TSH) — a minimal custom shell\n"
  let w2 := cout w1 "Built-in commands:\n"
  .ret true (env.iteration.foldl (fun acc name => cout (cout (cout acc "  ") name) "\n") w2)

/-- Embedding of `tsh_exit`. -/
def tsh_exit : builtin_function := fun _ _ w => .ret false w

/-- Embedding of the map `builtin_commands`; `find` is `List.lookup`, which
compares keys with string equality. -/
def builtin_commands : List (String × builtin_function) :=
  [("cd", tsh_cd), ("help", tsh_help), ("exit", tsh_exit)]

/-- Embedding of `tsh_num_builtins`. -/
def tsh_num_builtins : Nat := builtin_commands.length

/-- Embedding of `tsh_execute`. -/
def tsh_execute (env : Env) (arguments : Command) (w : World) : Result Bool :=
  match arguments with
  | [] => .ret true w
  | name :: _ =>
    match builtin_commands.lookup name with
    | some handler => handler env arguments w
    | none => (tsh_launch env arguments w).bind (fun _ w1 => .ret true w1)

/-- The `do ... while (status)` loop of `tsh_loop`, bounded by a number of
iterations. -/
def loop_fuel (env : Env) : Nat → World → Result Unit
  | 0, w => .unfinished w
  | fuel + 1, w =>
    let w1 := cout w "--> "
    (tsh_read_line env w1).bind (fun line w2 =>
      let arguments := tsh_split_line line
      let w3 := log w2 (Event.execute arguments)
      (tsh_execute env arguments w3).bind (fun status w4 =>
        if status then loop_fuel env fuel w4 else .ret () w4))

/-- Embedding of `tsh_loop`.  Every iteration that does not end the process
consumes one line of input, so `stdin.length + 1` iterations always suffice. -/
def tsh_loop (env : Env) (w : World) : Result Unit :=
  loop_fuel env (w.stdin.length + 1) w

/-- Embedding of `main`: returning `EXIT_SUCCESS` from `main` ends the process
with that status. -/
def main (env : Env) (w : World) : Result Unit :=
  (tsh_loop env w).bind (fun _ w1 => .exit EXIT_SUCCESS w1)

/-- The environment as seen by the shell process itself when every child
terminates: `fork` never returns 0 (that value is seen by the child only), and
for every child that was created some `waitpid` call stores a status that
reports a normal exit or a termination by a signal. -/
def ShellView (env : Env) : Prop :=
  ∀ h : List Event, (env.fork h).pid ≠ 0 ∧
    (0 < (env.fork h).pid →
      ∃ st, some st ∈ (env.fork h).waits ∧ (WIFEXITED st = true ∨ WIFSIGNALED st = true))

/-- A line whose dispatch signals stop: its first token is `exit`. -/
def stops (line : String) : Bool :=
  (tsh_split_line line).head? == some "exit"

/-- The events of the listing printed by `help` for the names visited. -/
def help_listing (names : List String) : List Event :=
  names.flatMap (fun name => [Event.cout "  ", Event.cout name, Event.cout "\n"])

/-- The iteration over the `unordered_map` visits every entry exactly once, in
some order. -/
def RegistryOrder (env : Env) : Prop :=
  env.iteration.Perm (builtin_commands.map Prod.fst)

/-- Number of positions of `text` at which `word` occurs. -/
def occurrences (word : List Char) : List Char → Nat
  | [] => if word.isEmpty then 1 else 0
  | c :: cs => (if word.isPrefixOf (c :: cs) then 1 else 0) + occurrences word cs

/-- The events made by the loop itself: a prompt, a read, a dispatch. -/
def loop_event : Event → Bool
  | Event.cout text => text == "--> "
  | Event.getline _ => true
  | Event.execute _ => true
  | _ => false

/-- The loop events of one Running step on a line that was read: one prompt, the
read of the line, the dispatch of its tokens. -/
def round (line : String) : List Event :=
  [Event.cout "--> ", Event.getline (some line), Event.execute (tsh_split_line line)]

/-- False only for the result that stands for an exhausted iteration bound. -/
def Result.finished {α : Type} : Result α → Bool
  | .unfinished _ => false
  | _ => true

/-! ## Concrete environments and worlds used to exercise the theorems -/

/-- An environment in which every directory change succeeds and every child is
created, stops once, and then exits with status 1. -/
def env_ok : Env :=
  { chdir := fun _ _ path => ⟨0, path⟩,
    fork := fun _ =>
      ⟨4242, [some (WaitStatus.stopped 19), some (WaitStatus.exited 1),
        some (WaitStatus.exited 0)]⟩,
    execvp_fails := fun _ => true,
    strerror := fun _ => "No such file or directory",
    uninitialised := fun _ => WaitStatus.stopped 0,
    iteration := ["exit", "help", "cd"] }

/-- An environment in which every directory change and every process creation
fails. -/
def env_failing : Env :=
  { chdir := fun _ _ path => ⟨-1, path⟩,
    fork := fun _ => ⟨-1, []⟩,
    execvp_fails := fun _ => true,
    strerror := fun _ => "Permission denied",
    uninitialised := fun _ => WaitStatus.stopped 0,
    iteration := ["cd", "help", "exit"] }

/-- A fresh process in the root directory with the given input, in which a
failing read is reported by `eof()` exactly when it is the end of the input. -/
def world_of (lines : List String) (eof : Bool) : World :=
  { stdin := lines, stdin_eof := eof, stdin_error := !eof, cwd := "/", trace := [] }

/-- An environment in which a child is created but the `waitpid` call on it
fails and stores nothing (as with `ECHILD` when `SIGCHLD` is ignored), while the
uninitialised `status` holds 0, which the status tests read as a normal exit. -/
def env_wait_fails : Env :=
  { chdir := fun _ _ path => ⟨0, path⟩,
    fork := fun _ => ⟨4242, [none]⟩,
    execvp_fails := fun _ => true,
    strerror := fun _ => "No child processes",
    uninitialised := fun _ => WaitStatus.exited 0,
    iteration := ["cd", "help", "exit"] }

/-- A fresh process whose standard input cannot be read (closed descriptor):
the first read fails with a genuine error, and the runtime reports it through
`eofbit`. -/
def world_read_error : World :=
  { stdin := [], stdin_eof := true, stdin_error := true, cwd := "/", trace := [] }

/-! ## Tokenizer lemmas -/


theorem dropWhile_space_append (ws l : List Char) (hws : ∀ c ∈ ws, isspace c = true) :
    (ws ++ l).dropWhile isspace = l.dropWhile isspace := by
  induction ws with
  | nil => rfl
  | cons c cs ih =>
    have hc : isspace c = true := hws c (List.mem_cons_self _ _)
    simp only [List.cons_append, List.dropWhile_cons, hc, if_true]
    exact ih (fun d hd => hws d (List.mem_cons_of_mem _ hd))

theorem dropWhile_space_of_nonspace (t l : List Char) (hne : t ≠ [])
    (ht : ∀ c ∈ t, isspace c = false) :
    (t ++ l).dropWhile isspace = t ++ l := by
  cases t with
  | nil => exact absurd rfl hne
  | cons c cs =>
    have hc : isspace c = false := ht c (List.mem_cons_self _ _)
    simp [List.dropWhile_cons, hc]

theorem takeWhile_nonspace_append (t rest : List Char)
    (ht : ∀ c ∈ t, isspace c = false) (hsep : ∀ c ∈ rest.head?, isspace c = true) :
    (t ++ rest).takeWhile (fun c => !isspace c) = t := by
  induction t with
  | nil =>
    cases rest with
    | nil => rfl
    | cons d ds =>
      have hd : isspace d = true := hsep d (by simp)
      simp [List.takeWhile_cons, hd]
  | cons c cs ih =>
    have hc : isspace c = false := ht c (List.mem_cons_self _ _)
    simp only [List.cons_append, List.takeWhile_cons, hc, Bool.not_false, if_true]
    rw [ih (fun d hd => ht d (List.mem_cons_of_mem _ hd))]

theorem dropWhile_nonspace_append (t rest : List Char)
    (ht : ∀ c ∈ t, isspace c = false) (hsep : ∀ c ∈ rest.head?, isspace c = true) :
    (t ++ rest).dropWhile (fun c => !isspace c) = rest := by
  induction t with
  | nil =>
    cases rest with
    | nil => rfl
    | cons d ds =>
      have hd : isspace d = true := hsep d (by simp)
      simp [List.dropWhile_cons, hd]
  | cons c cs ih =>
    have hc : isspace c = false := ht c (List.mem_cons_self _ _)
    simp only [List.cons_append, List.dropWhile_cons, hc, Bool.not_false, if_true]
    exact ih (fun d hd => ht d (List.mem_cons_of_mem _ hd))

/-- An extraction on a line that starts with whitespace `ws`, then a run `t`,
then a remainder that is empty or starts with whitespace, yields `t` and leaves
exactly that remainder unread. -/
theorem extract_run (ws t rest : List Char)
    (hws : ∀ c ∈ ws, isspace c = true) (hne : t ≠ [])
    (ht : ∀ c ∈ t, isspace c = false) (hsep : ∀ c ∈ rest.head?, isspace c = true) :
    extract (ws ++ (t ++ rest)) = some (t, rest) := by
  unfold extract
  simp only [dropWhile_space_append ws _ hws, dropWhile_space_of_nonspace t rest hne ht,
    takeWhile_nonspace_append t rest ht hsep, dropWhile_nonspace_append t rest ht hsep]
  cases t with
  | nil => exact absurd rfl hne
  | cons c cs => simp

/-- An extraction on an all-whitespace line fails. -/
theorem extract_blank (ws : List Char) (hws : ∀ c ∈ ws, isspace c = true) :
    extract ws = none := by
  have h : ws.dropWhile isspace = [] := by
    have := dropWhile_space_append ws [] hws
    simpa using this
  simp [extract, h]

/-- Every result of the bounded loop is the list of maximal runs, as soon as the
bound exceeds the length of the input. -/
theorem split_loop_unique (s : List Char) (ts : List (List Char)) (h : MaximalRuns s ts) :
    ∀ fuel, s.length < fuel → split_loop fuel s = ts := by
  induction h with
  | nil ws hws =>
    intro fuel hf
    cases fuel with
    | zero => rfl
    | succ n => simp [split_loop, extract_blank ws hws]
  | cons ws t rest ts hws hne ht hsep _ ih =>
    intro fuel hf
    cases fuel with
    | zero => exact absurd hf (Nat.not_lt_zero _)
    | succ n =>
      have hlen : 0 < t.length := List.length_pos.mpr hne
      have hr : rest.length < n := by
        simp only [List.length_append] at hf
        omega
      simp only [split_loop, extract_run ws t rest hws hne ht hsep]
      rw [ih n hr]

theorem takeWhile_space_all (s : List Char) : ∀ c ∈ s.takeWhile isspace, isspace c = true := by
  intro c hc
  exact (List.mem_takeWhile_imp hc)

theorem takeWhile_nonspace_all (s : List Char) :
    ∀ c ∈ s.takeWhile (fun c => !isspace c), isspace c = false := by
  intro c hc
  have := List.mem_takeWhile_imp hc
  simpa using this

theorem head_dropWhile_nonspace (s : List Char) :
    ∀ c ∈ (s.dropWhile (fun c => !isspace c)).head?, isspace c = true := by
  induction s with
  | nil => simp
  | cons d ds ih =>
    intro c hc
    by_cases hd : isspace d = true
    · simp [List.dropWhile_cons, hd] at hc
      rw [← hc]; exact hd
    · have hd2 : isspace d = false := by simpa using hd
      simp only [List.dropWhile_cons, hd2, Bool.not_false, if_true] at hc
      exact ih c hc

theorem head_dropWhile_space (s : List Char) :
    ∀ c ∈ (s.dropWhile isspace).head?, isspace c = false := by
  induction s with
  | nil => simp
  | cons d ds ih =>
    intro c hc
    by_cases hd : isspace d = true
    · simp only [List.dropWhile_cons, hd, if_true] at hc
      exact ih c hc
    · have hd2 : isspace d = false := by simpa using hd
      simp [List.dropWhile_cons, hd2] at hc
      rw [← hc]; exact hd2

/-- The bounded loop produces the maximal runs of its input as soon as the
bound exceeds the length of the input. -/
theorem split_loop_runs : ∀ (fuel : Nat) (s : List Char), s.length < fuel →
    MaximalRuns s (split_loop fuel s) := by
  intro fuel
  induction fuel with
  | zero => intro s hs; exact absurd hs (Nat.not_lt_zero _)
  | succ n ih =>
    intro s hs
    have hsplit : s = s.takeWhile isspace ++ s.dropWhile isspace :=
      (List.takeWhile_append_dropWhile isspace s).symm
    have hsplit2 : s.dropWhile isspace =
        (s.dropWhile isspace).takeWhile (fun c => !isspace c) ++
          (s.dropWhile isspace).dropWhile (fun c => !isspace c) :=
      (List.takeWhile_append_dropWhile _ _).symm
    by_cases hemp : (s.dropWhile isspace).takeWhile (fun c => !isspace c) = []
    · -- nothing can be extracted: the rest of the line is empty
      have hnone : extract s = none := by simp [extract, hemp]
      have hdrop : s.dropWhile isspace = [] := by
        cases hd : s.dropWhile isspace with
        | nil => rfl
        | cons d ds =>
          have h1 : isspace d = false := head_dropWhile_space s d (by simp [hd])
          rw [hd] at hemp
          simp [List.takeWhile_cons, h1] at hemp
      have hall : ∀ c ∈ s, isspace c = true := by
        intro c hc
        rw [hsplit, hdrop, List.append_nil] at hc
        exact takeWhile_space_all s c hc
      simp only [split_loop, hnone]
      exact MaximalRuns.nil s hall
    · have hsome : extract s = some ((s.dropWhile isspace).takeWhile (fun c => !isspace c),
          (s.dropWhile isspace).dropWhile (fun c => !isspace c)) := by
        simp [extract, hemp]
      have hlen : s.length = (s.takeWhile isspace).length +
          (((s.dropWhile isspace).takeWhile (fun c => !isspace c)).length +
            ((s.dropWhile isspace).dropWhile (fun c => !isspace c)).length) := by
        conv_lhs => rw [hsplit, hsplit2]
        simp only [List.length_append]
      have hpos : 0 < ((s.dropWhile isspace).takeWhile (fun c => !isspace c)).length :=
        List.length_pos.mpr hemp
      have hr : ((s.dropWhile isspace).dropWhile (fun c => !isspace c)).length < n := by omega
      simp only [split_loop, hsome]
      have hcons := MaximalRuns.cons (s.takeWhile isspace)
        ((s.dropWhile isspace).takeWhile (fun c => !isspace c))
        ((s.dropWhile isspace).dropWhile (fun c => !isspace c))
        (split_loop n ((s.dropWhile isspace).dropWhile (fun c => !isspace c)))
        (takeWhile_space_all s) hemp (takeWhile_nonspace_all _) (head_dropWhile_nonspace _)
        (ih _ hr)
      rw [← hsplit2, ← hsplit] at hcons
      exact hcons


theorem maximalRuns_tokens (s : List Char) (ts : List (List Char)) (h : MaximalRuns s ts) :
    ∀ t ∈ ts, t ≠ [] ∧ ∀ c ∈ t, isspace c = false := by
  induction h with
  | nil ws hws => intro t ht; cases ht
  | cons ws t rest ts hws hne ht hsep _ ih =>
    intro u hu
    rcases List.mem_cons.mp hu with rfl | hu
    · exact ⟨hne, ht⟩
    · exact ih u hu

theorem maximalRuns_nil_iff (s : List Char) :
    MaximalRuns s [] ↔ ∀ c ∈ s, isspace c = true := by
  constructor
  · intro h
    cases h with
    | nil ws hws => exact hws
  · intro h
    exact MaximalRuns.nil s h

theorem map_data_mk (l : List (List Char)) : (l.map String.mk).map String.data = l := by
  induction l with
  | nil => rfl
  | cons a l ih => simp [ih]

theorem split_line_data (line : String) :
    (tsh_split_line line).map String.data = split_loop (line.length + 1) line.data := by
  unfold tsh_split_line
  exact map_data_mk _

theorem split_line_runs (line : String) :
    MaximalRuns line.data ((tsh_split_line line).map String.data) := by
  rw [split_line_data]
  exact split_loop_runs _ _ (Nat.lt_succ_self _)

theorem split_line_blank (line : String) (h : ∀ c ∈ line.data, isspace c = true) :
    tsh_split_line line = [] := by
  have h1 := split_loop_unique line.data [] (MaximalRuns.nil _ h) (line.length + 1)
    (Nat.lt_succ_self _)
  simp [tsh_split_line, h1]

/-- C1: For every line, `tsh_split_line` returns exactly the maximal runs of
non-whitespace characters of the line, from left to right: the result satisfies
the specification `MaximalRuns`, it is the only list that does, no token is
empty, no token contains a whitespace character (every other character,
quotes and backslashes included, is kept as it is), and the result is empty
exactly when the line is empty or all whitespace. -/
theorem tsh_split_line_maximal_runs (line : String) :
    MaximalRuns line.data ((tsh_split_line line).map String.data) ∧
    (∀ ts, MaximalRuns line.data ts → (tsh_split_line line).map String.data = ts) ∧
    (∀ t ∈ tsh_split_line line, t ≠ "" ∧ ∀ c ∈ t.data, isspace c = false) ∧
    (tsh_split_line line = [] ↔ ∀ c ∈ line.data, isspace c = true) := by
  refine ⟨split_line_runs line, ?_, ?_, ?_⟩
  · intro ts hts
    rw [split_line_data]
    exact split_loop_unique _ _ hts _ (Nat.lt_succ_self _)
  · intro t ht
    have h := maximalRuns_tokens _ _ (split_line_runs line) t.data (List.mem_map_of_mem _ ht)
    refine ⟨?_, h.2⟩
    intro he
    apply h.1
    rw [he]
  · constructor
    · intro h
      have hr := split_line_runs line
      rw [h] at hr
      exact (maximalRuns_nil_iff _).mp hr
    · exact split_line_blank line

/-- C1 at a concrete line with tabs, quotes and a backslash. -/
theorem tsh_split_line_maximal_runs_witness :
    tsh_split_line "  echo \"a  b\"\t\\n x " = ["echo", "\"a", "b\"", "\\n", "x"] ∧
    (tsh_split_line " \t " = [] ↔ ∀ c ∈ " \t ".data, isspace c = true) :=
  ⟨by decide, (tsh_split_line_maximal_runs " \t ").2.2.2⟩

/-! ## Dispatcher lemmas -/

theorem lookup_cd : builtin_commands.lookup "cd" = some tsh_cd := by
  simp [builtin_commands, List.lookup]

theorem lookup_help : builtin_commands.lookup "help" = some tsh_help := by
  simp [builtin_commands, List.lookup]

theorem lookup_exit : builtin_commands.lookup "exit" = some tsh_exit := by
  simp [builtin_commands, List.lookup]

theorem lookup_other (name : String) (h1 : name ≠ "cd") (h2 : name ≠ "help")
    (h3 : name ≠ "exit") : builtin_commands.lookup name = none := by
  have e1 : (name == "cd") = false := beq_eq_false_iff_ne.mpr h1
  have e2 : (name == "help") = false := beq_eq_false_iff_ne.mpr h2
  have e3 : (name == "exit") = false := beq_eq_false_iff_ne.mpr h3
  simp only [builtin_commands, List.lookup, e1, e2, e3]

theorem wait_bind_ret (r : Result Unit) :
    ((r.bind (fun _ w2 => Result.ret true w2)).bind (fun (_ : Bool) w1 => Result.ret true w1)) =
      r.bind (fun _ w2 => Result.ret true w2) := by
  cases r <;> rfl

/-- `tsh_launch` returns `true` whenever it returns, so the `return true` that
follows its call in `tsh_execute` changes nothing. -/
theorem launch_bind_ret (env : Env) (arguments : Command) (w : World) :
    (tsh_launch env arguments w).bind (fun _ w1 => Result.ret true w1) =
      tsh_launch env arguments w := by
  unfold tsh_launch
  split
  · rfl
  · simp only []
    split
    · split <;> rfl
    · split
      · rfl
      · exact wait_bind_ret _

theorem launch_ne_stop (env : Env) (arguments : Command) (w w1 : World) :
    tsh_launch env arguments w ≠ Result.ret false w1 := by
  intro h
  have h2 := launch_bind_ret env arguments w
  rw [h] at h2
  simp [Result.bind] at h2

theorem cd_continues (env : Env) (arguments : Command) (w : World) :
    ∃ w1, tsh_cd env arguments w = Result.ret true w1 := by
  unfold tsh_cd
  split
  · exact ⟨_, rfl⟩
  · simp only []
    split <;> exact ⟨_, rfl⟩

theorem execute_cons_cd (env : Env) (rest : Command) (w : World) :
    tsh_execute env ("cd" :: rest) w = tsh_cd env ("cd" :: rest) w := by
  simp [tsh_execute, lookup_cd]

theorem execute_cons_help (env : Env) (rest : Command) (w : World) :
    tsh_execute env ("help" :: rest) w = tsh_help env ("help" :: rest) w := by
  simp [tsh_execute, lookup_help]

theorem execute_cons_exit (env : Env) (rest : Command) (w : World) :
    tsh_execute env ("exit" :: rest) w = tsh_exit env ("exit" :: rest) w := by
  simp [tsh_execute, lookup_exit]

theorem execute_cons_other (env : Env) (name : String) (rest : Command) (w : World)
    (h1 : name ≠ "cd") (h2 : name ≠ "help") (h3 : name ≠ "exit") :
    tsh_execute env (name :: rest) w = tsh_launch env (name :: rest) w := by
  simp only [tsh_execute, lookup_other name h1 h2 h3]
  exact launch_bind_ret env _ w

/-- The dispatcher signals stop exactly on a command whose first token is
`exit`. -/
theorem execute_stop_iff (env : Env) (arguments : Command) (w : World) :
    (∃ w1, tsh_execute env arguments w = Result.ret false w1) ↔
      arguments.head? = some "exit" := by
  cases arguments with
  | nil => simp [tsh_execute]
  | cons name rest =>
    by_cases h3 : name = "exit"
    · subst h3
      simp [execute_cons_exit, tsh_exit]
    · have hne : ¬ (some name = some "exit") := by simpa using h3
      simp only [List.head?_cons, hne, iff_false]
      rintro ⟨w1, hw1⟩
      by_cases h1 : name = "cd"
      · subst h1
        rw [execute_cons_cd] at hw1
        obtain ⟨w2, hw2⟩ := cd_continues env ("cd" :: rest) w
        rw [hw2] at hw1
        simp at hw1
      · by_cases h2 : name = "help"
        · subst h2
          rw [execute_cons_help] at hw1
          simp [tsh_help] at hw1
        · rw [execute_cons_other env name rest w h1 h2 h3] at hw1
          exact launch_ne_stop env _ w w1 hw1

/-! ## Traces -/

theorem process_calls_append (a b : List Event) :
    process_calls (a ++ b) = process_calls a ++ process_calls b := by
  induction a with
  | nil => rfl
  | cons e es ih => cases e <;> simp [process_calls, ih]

theorem stdout_text_append (a b : List Event) :
    stdout_text (a ++ b) = stdout_text a ++ stdout_text b := by
  induction a with
  | nil => simp [stdout_text]
  | cons e es ih => cases e <;> simp [stdout_text, ih, String.append_assoc]

theorem stderr_text_append (a b : List Event) :
    stderr_text (a ++ b) = stderr_text a ++ stderr_text b := by
  induction a with
  | nil => simp [stderr_text]
  | cons e es ih => cases e <;> simp [stderr_text, ih, String.append_assoc]

theorem chdir_calls_append (a b : List Event) :
    chdir_calls (a ++ b) = chdir_calls a ++ chdir_calls b := by
  induction a with
  | nil => rfl
  | cons e es ih => cases e <;> simp [chdir_calls, ih]

/-- The listing loop of `help` only appends its three insertions per name. -/
theorem help_fold (names : List String) (w : World) :
    names.foldl (fun acc name => cout (cout (cout acc "  ") name) "\n") w =
      { w with trace := w.trace ++ help_listing names } := by
  induction names generalizing w with
  | nil => simp [help_listing]
  | cons n ns ih =>
    rw [List.foldl_cons, ih]
    simp [help_listing, cout, log, List.append_assoc]

theorem help_world (env : Env) (arguments : Command) (w : World) :
    tsh_help env arguments w = Result.ret true
      { w with trace := w.trace ++
          (Event.cout "TurboShell (TSH) — a minimal custom shell\n" ::
            Event.cout "Built-in commands:\n" :: help_listing env.iteration) } := by
  unfold tsh_help
  simp only []
  rw [help_fold]
  simp [cout, log, List.append_assoc]

theorem process_calls_help_listing (names : List String) :
    process_calls (help_listing names) = [] := by
  induction names with
  | nil => rfl
  | cons n ns ih =>
    have : help_listing (n :: ns) =
        Event.cout "  " :: Event.cout n :: Event.cout "\n" :: help_listing ns := by
      simp [help_listing]
    rw [this]
    simp [process_calls, ih]

theorem cd_process_calls (env : Env) (arguments : Command) (w : World) :
    process_calls (tsh_cd env arguments w).world.trace = process_calls w.trace := by
  unfold tsh_cd
  split
  · simp [Result.world, cerr, log, process_calls_append, process_calls]
  · simp only []
    split <;> simp [Result.world, cerr, log, process_calls_append, process_calls]

theorem help_process_calls (env : Env) (arguments : Command) (w : World) :
    process_calls (tsh_help env arguments w).world.trace = process_calls w.trace := by
  rw [help_world]
  simp [Result.world, process_calls_append, process_calls, process_calls_help_listing]

/-! ## Launcher lemmas -/

/-- When the calls store statuses, the wait loop consumes the answers up to and
including the first status that reports a normal exit or a termination by a
signal, and then returns. -/
theorem wait_loop_first_terminal (pid : Int) (pre : List WaitStatus) (st : WaitStatus)
    (post : List (Option WaitStatus)) (status : WaitStatus) (w : World)
    (hpre : ∀ s ∈ pre, WIFEXITED s = false ∧ WIFSIGNALED s = false)
    (hst : WIFEXITED st = true ∨ WIFSIGNALED st = true) :
    wait_loop pid (pre.map some ++ some st :: post) status w =
      Result.ret ()
        { w with trace := w.trace ++
            (pre ++ [st]).map (fun s => Event.waitpid pid (some s)) } := by
  induction pre generalizing w status with
  | nil =>
    rcases hst with h | h <;> simp [wait_loop, h, log]
  | cons s ss ih =>
    have hs := hpre s (List.mem_cons_self _ _)
    have ih2 := ih s (log w (Event.waitpid pid (some s)))
      (fun x hx => hpre x (List.mem_cons_of_mem _ hx))
    have step : wait_loop pid (some s :: (ss.map some ++ some st :: post)) status w =
        wait_loop pid (ss.map some ++ some st :: post) s
          (log w (Event.waitpid pid (some s))) := by
      simp [wait_loop, hs.1, hs.2]
    rw [List.map_cons, List.cons_append, step, ih2]
    simp [log, List.append_assoc]

/-- As soon as some call stores a status that reports a normal exit or a
termination by a signal, the wait loop returns, after `waitpid` calls only. -/
theorem wait_loop_returns (pid : Int) (waits : List (Option WaitStatus))
    (h : ∃ st, some st ∈ waits ∧ (WIFEXITED st = true ∨ WIFSIGNALED st = true)) :
    ∀ (status : WaitStatus) (w : World), ∃ body,
      wait_loop pid waits status w = Result.ret () { w with trace := w.trace ++ body } ∧
      ∀ e ∈ body, ∃ a, e = Event.waitpid pid a := by
  induction waits with
  | nil =>
    obtain ⟨st, hst, _⟩ := h
    cases hst
  | cons a later ih =>
    intro status w
    by_cases hc : (!WIFEXITED (a.getD status) && !WIFSIGNALED (a.getD status)) = true
    · have hlater : ∃ st, some st ∈ later ∧
          (WIFEXITED st = true ∨ WIFSIGNALED st = true) := by
        obtain ⟨st, hst, ht⟩ := h
        rcases List.mem_cons.mp hst with e | hst
        · subst e
          rcases ht with ht | ht <;> simp [ht] at hc
        · exact ⟨st, hst, ht⟩
      obtain ⟨body, hb, hall⟩ := ih hlater (a.getD status) (log w (Event.waitpid pid a))
      refine ⟨Event.waitpid pid a :: body, ?_, ?_⟩
      · have step : wait_loop pid (a :: later) status w =
            wait_loop pid later (a.getD status) (log w (Event.waitpid pid a)) := by
          simp only [wait_loop, hc, if_true]
        rw [step, hb]
        simp [log, List.append_assoc]
      · intro e he
        rcases List.mem_cons.mp he with rfl | he
        · exact ⟨a, rfl⟩
        · exact hall e he
    · refine ⟨[Event.waitpid pid a], ?_, ?_⟩
      · simp only [wait_loop, hc]
        simp [log]
      · intro e he
        exact ⟨a, by simpa using he⟩

theorem launch_failed (env : Env) (arguments : Command) (w : World) (hne : arguments ≠ [])
    (hpid : (env.fork w.trace).pid < 0) :
    tsh_launch env arguments w =
      Result.ret true (perror env (log w (Event.fork (env.fork w.trace).pid)) "tsh") := by
  have h0 : ¬ ((env.fork w.trace).pid = 0) := by omega
  have he : arguments.isEmpty = false := by
    cases arguments with
    | nil => exact absurd rfl hne
    | cons a l => rfl
  simp [tsh_launch, he, h0, hpid]

theorem launch_parent (env : Env) (arguments : Command) (w : World) (hne : arguments ≠ [])
    (hpid : 0 < (env.fork w.trace).pid) :
    tsh_launch env arguments w =
      (wait_loop (env.fork w.trace).pid (env.fork w.trace).waits
        (env.uninitialised (w.trace ++ [Event.fork (env.fork w.trace).pid]))
        (log w (Event.fork (env.fork w.trace).pid))).bind (fun _ w2 => Result.ret true w2) := by
  have h0 : ¬ ((env.fork w.trace).pid = 0) := by omega
  have h1 : ¬ ((env.fork w.trace).pid < 0) := by omega
  have he : arguments.isEmpty = false := by
    cases arguments with
    | nil => exact absurd rfl hne
    | cons a l => rfl
  simp [tsh_launch, he, h0, h1]
  rfl

/-- In the shell process, with children that terminate, the launcher returns
continue. -/
theorem launch_returns (env : Env) (hv : ShellView env) (arguments : Command) (w : World) :
    ∃ w1, tsh_launch env arguments w = Result.ret true w1 := by
  by_cases hne : arguments = []
  · subst hne
    exact ⟨w, by simp [tsh_launch]⟩
  · obtain ⟨h0, hterm⟩ := hv w.trace
    rcases lt_or_gt_of_ne h0 with hneg | hpos
    · exact ⟨_, launch_failed env arguments w hne hneg⟩
    · obtain ⟨body, hb, _⟩ := wait_loop_returns (env.fork w.trace).pid _ (hterm hpos)
        (env.uninitialised (w.trace ++ [Event.fork (env.fork w.trace).pid]))
        (log w (Event.fork (env.fork w.trace).pid))
      rw [launch_parent env arguments w hne hpos, hb]
      exact ⟨_, rfl⟩

/-! ## Dispatcher -/

/-- C2: For every command, `tsh_execute` signals stop (returns `false`) if
and only if the command is non-empty and its first token is `exit`; and on such
a command, whatever arguments follow, it returns `false` at once and leaves the
world as it was, so nothing is written to standard output or to the error
stream.  No other command (`cd`, `help`, an external command, the empty
command), in any environment, signals stop. -/
theorem tsh_execute_stop_iff_exit (env : Env) (arguments : Command) (w : World) :
    ((∃ w1, tsh_execute env arguments w = Result.ret false w1) ↔
      (arguments ≠ [] ∧ arguments.head? = some "exit")) ∧
    (arguments.head? = some "exit" →
      tsh_execute env arguments w = Result.ret false w ∧
      stdout_text (tsh_execute env arguments w).world.trace = stdout_text w.trace ∧
      stderr_text (tsh_execute env arguments w).world.trace = stderr_text w.trace) := by
  constructor
  · rw [execute_stop_iff]
    constructor
    · intro h
      refine ⟨?_, h⟩
      rintro rfl
      simp at h
    · exact fun h => h.2
  · intro h
    cases arguments with
    | nil => simp at h
    | cons name rest =>
      have hn : name = "exit" := by simpa using h
      subst hn
      have e : tsh_execute env ("exit" :: rest) w = Result.ret false w := by
        rw [execute_cons_exit]; rfl
      rw [e]
      exact ⟨rfl, rfl, rfl⟩

/-- C2 on `exit` followed by arguments. -/
theorem tsh_execute_stop_iff_exit_witness :
    tsh_execute env_ok ["exit", "now", "3"] (world_of ["help"] true) =
        Result.ret false (world_of ["help"] true) ∧
    ¬ (∃ w1, tsh_execute env_failing ["cd", "/nowhere"] (world_of [] true) =
        Result.ret false w1) :=
  ⟨((tsh_execute_stop_iff_exit env_ok ["exit", "now", "3"] (world_of ["help"] true)).2
      (by decide)).1,
   fun h => absurd
     ((tsh_execute_stop_iff_exit env_failing ["cd", "/nowhere"] (world_of [] true)).1.mp h).2
     (by decide)⟩

/-- C3: For every non-empty command `name :: rest`, the dispatcher looks the
first token up by exact string equality.  If it is `cd`, `help` or `exit`, the
result is that of the matching handler applied to the whole command in the
same world, and no `fork`, `execvp` or `waitpid` call is made.  For every other
first token the result is that of `tsh_launch` applied to the whole, unmodified
command in the same world (no handler contributes), it is never a stop signal,
and in the shell process with terminating children it is continue. -/
theorem tsh_execute_dispatch (env : Env) (name : String) (rest : Command) (w : World) :
    (name = "cd" → tsh_execute env (name :: rest) w = tsh_cd env (name :: rest) w) ∧
    (name = "help" → tsh_execute env (name :: rest) w = tsh_help env (name :: rest) w) ∧
    (name = "exit" → tsh_execute env (name :: rest) w = tsh_exit env (name :: rest) w) ∧
    (name = "cd" ∨ name = "help" ∨ name = "exit" →
      process_calls (tsh_execute env (name :: rest) w).world.trace = process_calls w.trace) ∧
    (name ≠ "cd" → name ≠ "help" → name ≠ "exit" →
      tsh_execute env (name :: rest) w = tsh_launch env (name :: rest) w ∧
      (∀ w1, tsh_execute env (name :: rest) w ≠ Result.ret false w1) ∧
      (ShellView env → ∃ w1, tsh_execute env (name :: rest) w = Result.ret true w1)) := by
  refine ⟨?_, ?_, ?_, ?_, ?_⟩
  · rintro rfl; exact execute_cons_cd env rest w
  · rintro rfl; exact execute_cons_help env rest w
  · rintro rfl; exact execute_cons_exit env rest w
  · rintro (rfl | rfl | rfl)
    · rw [execute_cons_cd]; exact cd_process_calls env _ w
    · rw [execute_cons_help]; exact help_process_calls env _ w
    · rw [execute_cons_exit]; rfl
  · intro h1 h2 h3
    have e := execute_cons_other env name rest w h1 h2 h3
    refine ⟨e, ?_, ?_⟩
    · intro w1
      rw [e]
      exact launch_ne_stop env _ w w1
    · intro hv
      rw [e]
      exact launch_returns env hv _ w

theorem shellView_env_ok : ShellView env_ok := by
  intro h
  refine ⟨by simp [env_ok], fun _ => ⟨WaitStatus.exited 1, ?_, Or.inl rfl⟩⟩
  simp [env_ok]

theorem shellView_env_failing : ShellView env_failing := by
  intro h
  refine ⟨by simp [env_failing], fun hpos => ?_⟩
  simp [env_failing] at hpos

/-- C3 on names that differ from a builtin only in case or by one character,
and on a builtin. -/
theorem tsh_execute_dispatch_witness :
    (tsh_execute env_ok ["EXIT"] (world_of [] true) =
        tsh_launch env_ok ["EXIT"] (world_of [] true) ∧
      tsh_execute env_ok ["Cd", "/tmp"] (world_of [] true) =
        tsh_launch env_ok ["Cd", "/tmp"] (world_of [] true) ∧
      ∃ w1, tsh_execute env_ok ["exit2"] (world_of [] true) = Result.ret true w1) ∧
    tsh_execute env_ok ["cd", "/tmp"] (world_of [] true) =
      tsh_cd env_ok ["cd", "/tmp"] (world_of [] true) :=
  ⟨⟨((tsh_execute_dispatch env_ok "EXIT" [] (world_of [] true)).2.2.2.2
        (by decide) (by decide) (by decide)).1,
    ((tsh_execute_dispatch env_ok "Cd" ["/tmp"] (world_of [] true)).2.2.2.2
        (by decide) (by decide) (by decide)).1,
    ((tsh_execute_dispatch env_ok "exit2" [] (world_of [] true)).2.2.2.2
        (by decide) (by decide) (by decide)).2.2 shellView_env_ok⟩,
   (tsh_execute_dispatch env_ok "cd" ["/tmp"] (world_of [] true)).1 rfl⟩

/-- C4: For every line that is empty or all whitespace, the tokenizer
returns the empty command and the dispatcher, applied to it, returns continue
and leaves the world exactly as it was: no handler and no process call, the
working directory, standard output and the error stream are unchanged. -/
theorem blank_line_no_action (env : Env) (line : String) (w : World)
    (h : ∀ c ∈ line.data, isspace c = true) :
    tsh_split_line line = [] ∧
    tsh_execute env (tsh_split_line line) w = Result.ret true w := by
  have e := split_line_blank line h
  refine ⟨e, ?_⟩
  rw [e]
  rfl

/-- C4 on a line of spaces, a tab and a carriage return. -/
theorem blank_line_no_action_witness :
    (∀ c ∈ "  \t \r".data, isspace c = true) ∧
    tsh_split_line "  \t \r" = [] ∧
    tsh_execute env_ok (tsh_split_line "  \t \r") (world_of ["exit"] false) =
      Result.ret true (world_of ["exit"] false) :=
  ⟨by decide, blank_line_no_action env_ok "  \t \r" (world_of ["exit"] false) (by decide)⟩

/-! ## Process launcher -/

/-- When process creation fails the launcher reports it and returns continue.
When a child was created and the `waitpid` calls store the statuses `pre` and
then `st`, the first one that reports a normal exit or a termination by a
signal, the launcher makes exactly the calls that store `pre ++ [st]` and then
returns continue.  Whenever the launcher returns, it returns continue. -/
theorem launch_stored (env : Env) (arguments : Command) (w : World)
    (hne : arguments ≠ []) :
    ((env.fork w.trace).pid < 0 →
      tsh_launch env arguments w =
        Result.ret true (perror env (log w (Event.fork (env.fork w.trace).pid)) "tsh")) ∧
    (0 < (env.fork w.trace).pid →
      ∀ pre st post, (env.fork w.trace).waits = pre.map some ++ some st :: post →
        (∀ s ∈ pre, WIFEXITED s = false ∧ WIFSIGNALED s = false) →
        (WIFEXITED st = true ∨ WIFSIGNALED st = true) →
        tsh_launch env arguments w = Result.ret true
          { w with trace := w.trace ++ Event.fork (env.fork w.trace).pid ::
              (pre ++ [st]).map (fun s => Event.waitpid (env.fork w.trace).pid (some s)) }) ∧
    (∀ b w1, tsh_launch env arguments w = Result.ret b w1 → b = true) := by
  refine ⟨launch_failed env arguments w hne, ?_, ?_⟩
  · intro hpos pre st post e hp ht
    rw [launch_parent env arguments w hne hpos, e,
      wait_loop_first_terminal _ pre st post _ _ hp ht]
    simp [Result.bind, log, List.append_assoc]
  · intro b w1 h
    cases b with
    | true => rfl
    | false => exact absurd h (launch_ne_stop env arguments w w1)

/-- C8 fails on the code: `tsh_launch` does not look at the return value of
`waitpid` and tests a `status` that has no initial value.  In the shell
process, with a child that was created, when the `waitpid` call fails and
stores nothing and the uninitialised `status` reads as a normal exit, the
launcher returns continue after that one failed call: no status reporting a
normal exit or a termination by a signal was stored by any call, so none was
observed before the return. -/
theorem tsh_launch_returns_unobserved :
    0 < (env_wait_fails.fork (world_of [] true).trace).pid ∧
    (env_wait_fails.fork (world_of [] true).trace).waits = [none] ∧
    tsh_launch env_wait_fails ["sleep", "10"] (world_of [] true) = Result.ret true
      { world_of [] true with trace := [Event.fork 4242, Event.waitpid 4242 none] } := by
  decide

/-! ## Builtins -/

theorem cd_few (env : Env) (arguments : Command) (w : World) (h : arguments.length < 2) :
    tsh_cd env arguments w =
      Result.ret true { w with trace := w.trace ++ [Event.cerr "tsh: expected argument to \"cd\"\n"] } := by
  simp [tsh_cd, h, cerr, log]

/-- C6: On the command `cd` alone, `tsh_cd` (also when reached through the
dispatcher) returns continue after a single insertion into the error stream;
the text added to the error stream is one line (its only newline is its last
character) and contains `expected argument`; nothing is added to standard
output, no `chdir` call is made and the working directory is unchanged. -/
theorem tsh_cd_no_argument (env : Env) (w : World) :
    tsh_cd env ["cd"] w = Result.ret true
      { w with trace := w.trace ++ [Event.cerr "tsh: expected argument to \"cd\"\n"] } ∧
    tsh_execute env ["cd"] w = tsh_cd env ["cd"] w ∧
    stderr_text (tsh_cd env ["cd"] w).world.trace =
      stderr_text w.trace ++ "tsh: expected argument to \"cd\"\n" ∧
    "tsh: expected argument to \"cd\"\n".data.count (Char.ofNat 10) = 1 ∧
    "tsh: expected argument to \"cd\"\n".data.getLast? = some (Char.ofNat 10) ∧
    "expected argument".data <:+: "tsh: expected argument to \"cd\"\n".data ∧
    stdout_text (tsh_cd env ["cd"] w).world.trace = stdout_text w.trace ∧
    chdir_calls (tsh_cd env ["cd"] w).world.trace = chdir_calls w.trace ∧
    (tsh_cd env ["cd"] w).world.cwd = w.cwd := by
  have e := cd_few env ["cd"] w (by decide)
  refine ⟨e, execute_cons_cd env [] w, ?_, by decide, by decide,
    ⟨"tsh: ".data, " to \"cd\"\n".data, by decide⟩, ?_, ?_, ?_⟩
  · rw [e]; simp [Result.world, stderr_text_append, stderr_text]
  · rw [e]; simp [Result.world, stdout_text_append, stdout_text]
  · rw [e]; simp [Result.world, chdir_calls_append, chdir_calls]
  · rw [e]; rfl

theorem registry_orders (env : Env) (h : RegistryOrder env) :
    env.iteration ∈ [["cd", "help", "exit"], ["help", "cd", "exit"], ["exit", "help", "cd"],
      ["help", "exit", "cd"], ["exit", "cd", "help"], ["cd", "exit", "help"]] := by
  have h1 : env.iteration ∈ List.permutations ["cd", "help", "exit"] :=
    List.mem_permutations.mpr h
  simpa [List.permutations, List.permutationsAux, List.permutationsAux.rec,
    List.permutationsAux2] using h1

/-- C7: For every command passed to it, `tsh_help` returns continue after
adding to standard output the two banner lines followed by one line per
registry entry (two spaces, the name, a newline), in the iteration order; the
names listed are `cd`, `help` and `exit`, each on one line and no other name;
in the whole text added each of `cd`, `help` and `exit` occurs exactly once; and
nothing is added to the error stream. -/
theorem tsh_help_output (env : Env) (arguments : Command) (w : World)
    (horder : RegistryOrder env) :
    ∃ added : List Event,
      tsh_help env arguments w = Result.ret true { w with trace := w.trace ++ added } ∧
      stdout_text added =
        "TurboShell (TSH) — a minimal custom shell\n" ++ "Built-in commands:\n" ++
          String.join (env.iteration.map (fun name => "  " ++ name ++ "\n")) ∧
      env.iteration.Nodup ∧ env.iteration.length = 3 ∧
      (∀ name, name ∈ env.iteration ↔ name = "cd" ∨ name = "help" ∨ name = "exit") ∧
      occurrences "cd".data (stdout_text added).data = 1 ∧
      occurrences "help".data (stdout_text added).data = 1 ∧
      occurrences "exit".data (stdout_text added).data = 1 ∧
      stderr_text added = "" := by
  refine ⟨_, help_world env arguments w, ?_⟩
  have hcases := registry_orders env horder
  simp only [List.mem_cons, List.mem_singleton, List.not_mem_nil, or_false] at hcases
  rcases hcases with e | e | e | e | e | e <;> rw [e] <;>
    refine ⟨by decide, by decide, by decide, ?_, by decide, by decide, by decide, by decide⟩ <;>
    intro name <;> simp <;> tauto

theorem registryOrder_env_ok : RegistryOrder env_ok := by
  show List.Perm ["exit", "help", "cd"] ["cd", "help", "exit"]
  decide

/-- C7 in an environment that iterates in the order `exit`, `help`, `cd`. -/
theorem tsh_help_output_witness :
    ∃ added : List Event,
      tsh_help env_ok ["help", "me"] (world_of [] true) =
        Result.ret true { world_of [] true with trace := (world_of [] true).trace ++ added } ∧
      stdout_text added =
        "TurboShell (TSH) — a minimal custom shell\n" ++ "Built-in commands:\n" ++
          String.join (env_ok.iteration.map (fun name => "  " ++ name ++ "\n")) ∧
      env_ok.iteration.Nodup ∧ env_ok.iteration.length = 3 ∧
      (∀ name, name ∈ env_ok.iteration ↔ name = "cd" ∨ name = "help" ∨ name = "exit") ∧
      occurrences "cd".data (stdout_text added).data = 1 ∧
      occurrences "help".data (stdout_text added).data = 1 ∧
      occurrences "exit".data (stdout_text added).data = 1 ∧
      stderr_text added = "" :=
  tsh_help_output env_ok ["help", "me"] (world_of [] true) registryOrder_env_ok

/-! ## The loop -/

theorem help_listing_quiet (names : List String)
    (h : ∀ name ∈ names, name = "cd" ∨ name = "help" ∨ name = "exit") :
    ∀ e ∈ help_listing names, loop_event e = false := by
  intro e he
  simp only [help_listing, List.mem_flatMap] at he
  obtain ⟨name, hn, hmem⟩ := he
  simp only [List.mem_cons, List.mem_singleton, List.not_mem_nil, or_false] at hmem
  rcases hmem with rfl | rfl | rfl
  · decide
  · rcases h name hn with rfl | rfl | rfl <;> decide
  · decide

theorem registry_names (env : Env) (h : RegistryOrder env) :
    ∀ name ∈ env.iteration, name = "cd" ∨ name = "help" ∨ name = "exit" := by
  intro name hn
  have := (List.Perm.mem_iff h).mp hn
  simpa [builtin_commands] using this

theorem cd_frame (env : Env) (arguments : Command) (w : World) :
    ∃ w1 body, tsh_cd env arguments w = Result.ret true w1 ∧
      w1.stdin = w.stdin ∧ w1.stdin_eof = w.stdin_eof ∧ w1.trace = w.trace ++ body ∧
      ∀ e ∈ body, loop_event e = false := by
  unfold tsh_cd
  split
  · exact ⟨_, [Event.cerr "tsh: expected argument to \"cd\"\n"], rfl, rfl, rfl, rfl,
      by simp [loop_event]⟩
  · simp only []
    split
    · refine ⟨_, [Event.chdir (c_str (arguments.getD 1 ""))
          (env.chdir w.trace w.cwd (c_str (arguments.getD 1 ""))).ret, Event.cerr "tsh: ",
          Event.cerr (env.strerror (w.trace ++ [Event.chdir (c_str (arguments.getD 1 ""))
            (env.chdir w.trace w.cwd (c_str (arguments.getD 1 ""))).ret])), Event.cerr "\n"],
        rfl, rfl, rfl, ?_, by simp [loop_event]⟩
      simp [cerr, log, List.append_assoc]
    · exact ⟨_, [Event.chdir (c_str (arguments.getD 1 ""))
          (env.chdir w.trace w.cwd (c_str (arguments.getD 1 ""))).ret], rfl, rfl, rfl, rfl,
        by simp [loop_event]⟩

theorem launch_frame (env : Env) (hv : ShellView env) (arguments : Command) (w : World) :
    ∃ w1 body, tsh_launch env arguments w = Result.ret true w1 ∧
      w1.stdin = w.stdin ∧ w1.stdin_eof = w.stdin_eof ∧ w1.trace = w.trace ++ body ∧
      ∀ e ∈ body, loop_event e = false := by
  by_cases hne : arguments = []
  · subst hne
    exact ⟨w, [], by simp [tsh_launch], rfl, rfl, by simp, by simp⟩
  · obtain ⟨h0, hterm⟩ := hv w.trace
    rcases lt_or_gt_of_ne h0 with hneg | hpos
    · refine ⟨_, [Event.fork (env.fork w.trace).pid,
          Event.cerr ("tsh" ++ ": " ++ env.strerror (w.trace ++
            [Event.fork (env.fork w.trace).pid]) ++ "\n")],
        launch_failed env arguments w hne hneg, rfl, rfl, ?_, by simp [loop_event]⟩
      simp [perror, log, List.append_assoc]
    · obtain ⟨body, hb, hall⟩ := wait_loop_returns (env.fork w.trace).pid _ (hterm hpos)
        (env.uninitialised (w.trace ++ [Event.fork (env.fork w.trace).pid]))
        (log w (Event.fork (env.fork w.trace).pid))
      rw [launch_parent env arguments w hne hpos, hb]
      refine ⟨_, Event.fork (env.fork w.trace).pid :: body, rfl, rfl, rfl, ?_, ?_⟩
      · simp [log, List.append_assoc]
      · intro ev hev
        rcases List.mem_cons.mp hev with rfl | hev
        · rfl
        · obtain ⟨a, rfl⟩ := hall ev hev
          rfl

/-- In the shell process with terminating children every dispatch returns; it
leaves the unread input alone, only appends events, appends no prompt, read or
dispatch event, and signals stop exactly on `exit`. -/
theorem execute_frame (env : Env) (hv : ShellView env) (arguments : Command) (w : World) :
    ∃ b w1 body, tsh_execute env arguments w = Result.ret b w1 ∧
      w1.stdin = w.stdin ∧ w1.stdin_eof = w.stdin_eof ∧ w1.trace = w.trace ++ body ∧
      (b = false ↔ arguments.head? = some "exit") ∧
      (RegistryOrder env → ∀ e ∈ body, loop_event e = false) := by
  cases arguments with
  | nil => exact ⟨true, w, [], rfl, rfl, rfl, by simp, by simp, by simp⟩
  | cons name rest =>
    by_cases h3 : name = "exit"
    · subst h3
      exact ⟨false, w, [], by rw [execute_cons_exit]; rfl, rfl, rfl, by simp, by simp, by simp⟩
    · have hne : ¬ (some name = some "exit") := by simpa using h3
      have hb : (true = false ↔ (name :: rest).head? = some "exit") := by
        simp only [List.head?_cons, hne]
        simp
      by_cases h1 : name = "cd"
      · subst h1
        obtain ⟨w1, body, e, hs, hf, ht, hq⟩ := cd_frame env ("cd" :: rest) w
        exact ⟨true, w1, body, by rw [execute_cons_cd]; exact e, hs, hf, ht, hb, fun _ => hq⟩
      · by_cases h2 : name = "help"
        · subst h2
          refine ⟨true,
            { w with trace := w.trace ++
                (Event.cout "TurboShell (TSH) — a minimal custom shell\n" ::
                  Event.cout "Built-in commands:\n" :: help_listing env.iteration) },
            Event.cout "TurboShell (TSH) — a minimal custom shell\n" ::
              Event.cout "Built-in commands:\n" :: help_listing env.iteration,
            by rw [execute_cons_help]; exact help_world env _ w, rfl, rfl, rfl, hb, ?_⟩
          intro ho e he
          rcases List.mem_cons.mp he with rfl | he
          · decide
          · rcases List.mem_cons.mp he with rfl | he
            · decide
            · exact help_listing_quiet _ (registry_names env ho) e he
        · obtain ⟨w1, body, e, hs, hf, ht, hq⟩ := launch_frame env hv (name :: rest) w
          exact ⟨true, w1, body, by rw [execute_cons_other env name rest w h1 h2 h3]; exact e,
            hs, hf, ht, hb, fun _ => hq⟩

/-- One Running step on an available line `x`: one prompt, the read of `x`, the
dispatch of its tokens, then the events of the command; the loop ends after it
exactly when `x` stops. -/
theorem loop_step (env : Env) (hv : ShellView env) (x : String) (rest : List String)
    (w : World) (n : Nat) (hw : w.stdin = x :: rest) :
    ∃ w1 body, w1.stdin = rest ∧ w1.stdin_eof = w.stdin_eof ∧
      w1.trace = w.trace ++ (round x ++ body) ∧
      (RegistryOrder env → ∀ e ∈ body, loop_event e = false) ∧
      loop_fuel env (n + 1) w = if stops x = true then Result.ret () w1 else loop_fuel env n w1 := by
  have hread : tsh_read_line env (cout w "--> ") = Result.ret x
      { w with stdin := rest,
               trace := w.trace ++ [Event.cout "--> "] ++ [Event.getline (some x)] } := by
    simp [tsh_read_line, cout, log, hw]
  obtain ⟨b, w4, body, he, hs, hf, ht, hb, hq⟩ := execute_frame env hv (tsh_split_line x)
    (log { w with stdin := rest,
                  trace := w.trace ++ [Event.cout "--> "] ++ [Event.getline (some x)] }
      (Event.execute (tsh_split_line x)))
  refine ⟨w4, body, hs, hf, ?_, hq, ?_⟩
  · rw [ht]
    simp [log, round, List.append_assoc]
  · have hstep : loop_fuel env (n + 1) w =
        if b = true then loop_fuel env n w4 else Result.ret () w4 := by
      show (tsh_read_line env (cout w "--> ")).bind _ = _
      rw [hread]
      simp only [Result.bind]
      rw [he]
    rw [hstep]
    cases b with
    | true =>
      have : ¬ (stops x = true) := by
        intro hx
        have := hb.mpr (by simpa [stops] using hx)
        simp at this
      simp [this]
    | false =>
      have : stops x = true := by
        have := hb.mp rfl
        simp [stops, this]
      simp [this]

theorem filter_round (x : String) : (round x).filter loop_event = round x := by
  simp [round, loop_event]

theorem filter_quiet (body : List Event) (h : ∀ e ∈ body, loop_event e = false) :
    body.filter loop_event = [] := by
  rw [List.filter_eq_nil_iff]
  intro e he
  simp [h e he]

/-- The loop on an input whose first stopping line is `l`. -/
theorem loop_stops (env : Env) (hv : ShellView env) (l : String) (post : List String)
    (hl : stops l = true) :
    ∀ (pre : List String) (w : World) (fuel : Nat), w.stdin = pre ++ l :: post →
      (∀ x ∈ pre, stops x = false) → pre.length < fuel →
      ∃ w1 tr, loop_fuel env fuel w = Result.ret () w1 ∧ w1.stdin = post ∧
        w1.stdin_eof = w.stdin_eof ∧ w1.trace = w.trace ++ tr ∧
        (RegistryOrder env → tr.filter loop_event = (pre ++ [l]).flatMap round) := by
  intro pre
  induction pre with
  | nil =>
    intro w fuel hw _ hf
    obtain ⟨n, rfl⟩ : ∃ n, fuel = n + 1 := ⟨fuel - 1, by omega⟩
    obtain ⟨w1, body, hs, he, ht, hq, hstep⟩ := loop_step env hv l post w n hw
    refine ⟨w1, round l ++ body, by rw [hstep]; simp [hl], hs, he, ht, ?_⟩
    intro ho
    simp [List.filter_append, filter_round, filter_quiet body (hq ho)]
  | cons x pre ih =>
    intro w fuel hw hpre hf
    obtain ⟨n, rfl⟩ : ∃ n, fuel = n + 1 := ⟨fuel - 1, by omega⟩
    obtain ⟨w1, body, hs, he, ht, hq, hstep⟩ := loop_step env hv x (pre ++ l :: post) w n hw
    have hx : stops x = false := hpre x (List.mem_cons_self _ _)
    obtain ⟨w2, tr, hr, hs2, he2, ht2, hq2⟩ := ih w1 n hs
      (fun y hy => hpre y (List.mem_cons_of_mem _ hy)) (by simpa using hf)
    refine ⟨w2, round x ++ body ++ tr, by rw [hstep]; simpa [hx] using hr, hs2,
      by rw [he2, he], by rw [ht2, ht]; simp [List.append_assoc], ?_⟩
    intro ho
    simp [List.filter_append, filter_round, filter_quiet body (hq ho), hq2 ho]

/-- The loop on an input without a stopping line: every line is dispatched, then
the reader ends the process. -/
theorem loop_reads_all (env : Env) (hv : ShellView env) :
    ∀ (lines : List String) (w : World) (fuel : Nat), w.stdin = lines →
      (∀ x ∈ lines, stops x = false) → lines.length < fuel →
      ∃ w1 tr, loop_fuel env fuel w =
          Result.exit (if w.stdin_eof = true then EXIT_SUCCESS else EXIT_FAILURE) w1 ∧
        w1.stdin = [] ∧ w1.trace = w.trace ++ tr ∧
        (RegistryOrder env → tr.filter loop_event =
          lines.flatMap round ++ [Event.cout "--> ", Event.getline none]) := by
  intro lines
  induction lines with
  | nil =>
    intro w fuel hw _ hf
    obtain ⟨n, rfl⟩ : ∃ n, fuel = n + 1 := ⟨fuel - 1, by omega⟩
    by_cases heof : w.stdin_eof = true
    · refine ⟨log (cout w "--> ") (Event.getline none),
        [Event.cout "--> ", Event.getline none], ?_, ?_, ?_, ?_⟩
      · show (tsh_read_line env (cout w "--> ")).bind _ = _
        simp only [tsh_read_line, cout, log, hw, heof, if_true, Result.bind]
      · exact hw
      · simp [cout, log, List.append_assoc]
      · intro _; decide
    · refine ⟨perror env (log (cout w "--> ") (Event.getline none)) "readline",
        [Event.cout "--> ", Event.getline none,
          Event.cerr ("readline" ++ ": " ++ env.strerror (w.trace ++
            [Event.cout "--> "] ++ [Event.getline none]) ++ "\n")], ?_, ?_, ?_, ?_⟩
      · show (tsh_read_line env (cout w "--> ")).bind _ = _
        simp only [tsh_read_line, cout, log, hw, heof, if_false, Result.bind]
        rfl
      · exact hw
      · simp [perror, cout, log, List.append_assoc]
      · intro _; simp [loop_event]
  | cons x lines ih =>
    intro w fuel hw hall hf
    obtain ⟨n, rfl⟩ : ∃ n, fuel = n + 1 := ⟨fuel - 1, by omega⟩
    obtain ⟨w1, body, hs, he, ht, hq, hstep⟩ := loop_step env hv x lines w n hw
    have hx : stops x = false := hall x (List.mem_cons_self _ _)
    obtain ⟨w2, tr, hr, hs2, ht2, hq2⟩ := ih w1 n hs
      (fun y hy => hall y (List.mem_cons_of_mem _ hy)) (by simpa using hf)
    refine ⟨w2, round x ++ body ++ tr, ?_, hs2, by rw [ht2, ht]; simp [List.append_assoc], ?_⟩
    · rw [hstep, ← he]
      simpa [hx] using hr
    · intro ho
      simp [List.filter_append, filter_round, filter_quiet body (hq ho), hq2 ho]

theorem first_stop (lines : List String) (h : ∃ x ∈ lines, stops x = true) :
    ∃ pre l post, lines = pre ++ l :: post ∧ (∀ x ∈ pre, stops x = false) ∧ stops l = true := by
  induction lines with
  | nil =>
    obtain ⟨x, hx, _⟩ := h
    cases hx
  | cons a lines ih =>
    by_cases ha : stops a = true
    · exact ⟨[], a, lines, rfl, by simp, ha⟩
    · have hl : ∃ x ∈ lines, stops x = true := by
        obtain ⟨x, hx, hs⟩ := h
        rcases List.mem_cons.mp hx with rfl | hx
        · exact absurd hs ha
        · exact ⟨x, hx, hs⟩
      obtain ⟨pre, l, post, e, hp, hs⟩ := ih hl
      refine ⟨a :: pre, l, post, by simp [e], ?_, hs⟩
      intro x hx
      rcases List.mem_cons.mp hx with rfl | hx
      · simpa using ha
      · exact hp x hx

/-- In the shell process with terminating children `main` ends the process
with status 0 or `EXIT_FAILURE`; the status is nonzero exactly when no line of
the input signals stop and `std::cin.eof()` is false after the read that fails.
Whether that read failed on a genuine error does not enter. -/
theorem main_exit_code (env : Env) (hv : ShellView env) (w : World) :
    ∃ code w1, main env w = Result.exit code w1 ∧
      (code = EXIT_SUCCESS ∨ code = EXIT_FAILURE) ∧
      (code ≠ 0 ↔ (w.stdin_eof = false ∧ ∀ x ∈ w.stdin, stops x = false)) := by
  by_cases h : ∃ x ∈ w.stdin, stops x = true
  · obtain ⟨pre, l, post, e, hp, hl⟩ := first_stop w.stdin h
    obtain ⟨w1, tr, hr, _⟩ := loop_stops env hv l post hl pre w (w.stdin.length + 1) e hp
      (by rw [e]; simp; omega)
    refine ⟨EXIT_SUCCESS, w1, ?_, Or.inl rfl, ?_⟩
    · simp [main, tsh_loop, hr, Result.bind]
    · constructor
      · intro hc; exact absurd rfl hc
      · rintro ⟨_, hall⟩
        obtain ⟨x, hx, hs⟩ := h
        rw [hall x hx] at hs
        cases hs
  · have hall : ∀ x ∈ w.stdin, stops x = false := by
      intro x hx
      by_contra hs
      exact h ⟨x, hx, by simpa using hs⟩
    obtain ⟨w1, tr, hr, _⟩ := loop_reads_all env hv w.stdin w (w.stdin.length + 1) rfl hall
      (Nat.lt_succ_self _)
    refine ⟨if w.stdin_eof = true then EXIT_SUCCESS else EXIT_FAILURE, w1, ?_, ?_, ?_⟩
    · simp only [main, tsh_loop, hr, Result.bind]
    · by_cases heof : w.stdin_eof = true
      · simp [heof]
      · simp [heof]
    · by_cases heof : w.stdin_eof = true
      · simp [heof, EXIT_SUCCESS]
      · simp only [heof, if_false, EXIT_FAILURE]
        exact ⟨fun _ => ⟨trivial, hall⟩, fun _ => by decide⟩

/-- C10 fails on the code: `tsh_read_line` tells a read error from the end of
the input by `std::cin.eof()` alone.  On a process whose first read fails with
a genuine read error, which the runtime reports through `eofbit`, `main` ends
the process with status 0 after printing only the prompt and writes nothing to
the error stream; the branch with `perror` and `EXIT_FAILURE` is not taken. -/
theorem main_read_error_exits_zero :
    world_read_error.stdin_error = true ∧
    main env_ok world_read_error = Result.exit 0
      { world_read_error with trace := [Event.cout "--> ", Event.getline none] } ∧
    stdout_text (main env_ok world_read_error).world.trace = "--> " ∧
    stderr_text (main env_ok world_read_error).world.trace = "" := by
  decide

/-! ## The iteration bound of the loop is never reached -/

theorem wait_loop_finished (pid : Int) (l : List (Option WaitStatus)) (status : WaitStatus)
    (w : World) :
    (wait_loop pid l status w).finished = true ∧
      (wait_loop pid l status w).world.stdin = w.stdin := by
  induction l generalizing w status with
  | nil => exact ⟨rfl, rfl⟩
  | cons s ss ih =>
    unfold wait_loop
    simp only []
    split
    · exact ih _ _
    · exact ⟨rfl, rfl⟩

theorem bind_finished {α β : Type} (r : Result α) (f : α → World → Result β) (w : World)
    (hr : r.finished = true ∧ r.world.stdin = w.stdin)
    (hf : ∀ a w1, (f a w1).finished = true ∧ (f a w1).world.stdin = w1.stdin) :
    (r.bind f).finished = true ∧ (r.bind f).world.stdin = w.stdin := by
  cases r with
  | ret a w1 =>
    have := hf a w1
    exact ⟨this.1, by rw [show (Result.ret a w1).bind f = f a w1 from rfl, this.2]; exact hr.2⟩
  | exit c w1 => exact hr
  | exec w1 => exact hr
  | hang w1 => exact hr
  | unfinished w1 => exact hr

theorem launch_finished (env : Env) (arguments : Command) (w : World) :
    (tsh_launch env arguments w).finished = true ∧
      (tsh_launch env arguments w).world.stdin = w.stdin := by
  unfold tsh_launch
  split
  · exact ⟨rfl, rfl⟩
  · simp only []
    split
    · split <;> exact ⟨rfl, rfl⟩
    · split
      · exact ⟨rfl, rfl⟩
      · exact bind_finished _ _ w (wait_loop_finished _ _ _ _) (fun _ _ => ⟨rfl, rfl⟩)

theorem execute_finished (env : Env) (arguments : Command) (w : World) :
    (tsh_execute env arguments w).finished = true ∧
      (tsh_execute env arguments w).world.stdin = w.stdin := by
  cases arguments with
  | nil => exact ⟨rfl, rfl⟩
  | cons name rest =>
    by_cases h1 : name = "cd"
    · subst h1
      obtain ⟨w1, body, e, hs, _⟩ := cd_frame env ("cd" :: rest) w
      rw [execute_cons_cd, e]
      exact ⟨rfl, hs⟩
    · by_cases h2 : name = "help"
      · subst h2
        rw [execute_cons_help, help_world]
        exact ⟨rfl, rfl⟩
      · by_cases h3 : name = "exit"
        · subst h3
          rw [execute_cons_exit]
          exact ⟨rfl, rfl⟩
        · rw [execute_cons_other env name rest w h1 h2 h3]
          exact launch_finished env _ w

/-- In every environment, also when a command never returns, `tsh_loop` ends in
one of the ways the program can end: the iteration bound is not reached. -/
theorem loop_fuel_finished (env : Env) :
    ∀ (fuel : Nat) (w : World), w.stdin.length < fuel →
      (loop_fuel env fuel w).finished = true := by
  intro fuel
  induction fuel with
  | zero => intro w h; exact absurd h (Nat.not_lt_zero _)
  | succ n ih =>
    intro w h
    cases hw : w.stdin with
    | nil =>
      show ((tsh_read_line env (cout w "--> ")).bind _).finished = true
      simp only [tsh_read_line, cout, log, hw]
      split <;> rfl
    | cons x rest =>
      have hread : tsh_read_line env (cout w "--> ") = Result.ret x
          { w with stdin := rest,
                   trace := w.trace ++ [Event.cout "--> "] ++ [Event.getline (some x)] } := by
        simp [tsh_read_line, cout, log, hw]
      show ((tsh_read_line env (cout w "--> ")).bind _).finished = true
      rw [hread]
      simp only [Result.bind]
      have hex := execute_finished env (tsh_split_line x)
        (log { w with stdin := rest,
                      trace := w.trace ++ [Event.cout "--> "] ++ [Event.getline (some x)] }
          (Event.execute (tsh_split_line x)))
      generalize tsh_execute env (tsh_split_line x)
        (log { w with stdin := rest,
                      trace := w.trace ++ [Event.cout "--> "] ++ [Event.getline (some x)] }
          (Event.execute (tsh_split_line x))) = r at hex
      cases r with
      | ret b w4 =>
        simp only [Result.bind]
        cases b with
        | true =>
          simp only [if_true]
          apply ih
          have e : w4.stdin = rest := hex.2
          rw [hw] at h
          rw [e]
          simpa using h
        | false => rfl
      | exit c w4 => rfl
      | exec w4 => rfl
      | hang w4 => rfl
      | unfinished w4 => exact absurd hex.1 (by simp [Result.finished])

theorem tsh_loop_finished (env : Env) (w : World) : (tsh_loop env w).finished = true :=
  loop_fuel_finished env _ w (Nat.lt_succ_self _)

end TurboShell
